import Mathlib

/-!
Verification of the power telemetry sampler and energy integrator
(`tegrastats_sampler.py`): the sample buffer, the power-line parser,
idle calibration, and trapezoidal energy integration.  Timestamps and
powers are modelled as rationals; the buffer as a list of samples in
append order.
-/

namespace Tegrastats

/-- A sample is a `(timestamp, power_mw)` pair, as stored in the buffer. -/
abbrev Sample := ℚ × ℚ

/-- `get_samples`: filter the buffered samples to the window.  The source
applies two list comprehensions in sequence, keeping samples with
`t >= t_start` and then those with `t <= t_end`; `none` means an
open-ended bound. -/
def get_samples (buf : List Sample) (t_start t_end : Option ℚ) : List Sample :=
  let s1 := match t_start with
    | none => buf
    | some ts => buf.filter (fun sp => decide (ts ≤ sp.1))
  match t_end with
  | none => s1
  | some te => s1.filter (fun sp => decide (sp.1 ≤ te))

/-- The accumulation loop of `integrate_energy` over consecutive sample
pairs: per endpoint, subtract idle and clamp at zero, convert mW to W,
then add the trapezoid area `((p1_w + p2_w) / 2) * (t2 - t1)`. -/
def trapLoop (idle_mw : ℚ) : List Sample → ℚ
  | s1 :: s2 :: rest =>
      ((max 0 (s1.2 - idle_mw) / 1000 + max 0 (s2.2 - idle_mw) / 1000) / 2)
        * (s2.1 - s1.1) + trapLoop idle_mw (s2 :: rest)
  | _ => 0

/-- Result of `integrate_energy`: the returned joules, plus whether the
low-sample-count warning was printed on that call. -/
structure EnergyResult where
  energy : ℚ
  warned : Bool
deriving DecidableEq, Repr

/-- The body of `integrate_energy` after the samples are fetched: fewer
than two samples prints a warning; one sample is treated as constant
power `(p - idle_mw)/1000` over `t_end - t_start`, clamped at zero after
the product; two or more samples run the trapezoidal loop. -/
def integrate_core (t_start t_end idle_mw : ℚ) : List Sample → EnergyResult
  | [] => ⟨0, true⟩
  | [s0] => ⟨max 0 ((s0.2 - idle_mw) / 1000 * (t_end - t_start)), true⟩
  | s1 :: s2 :: rest => ⟨trapLoop idle_mw (s1 :: s2 :: rest), false⟩

/-- `integrate_energy(t_start, t_end, idle_mw)`: fetch the samples in the
window and integrate. -/
def integrate_energy (buf : List Sample) (t_start t_end idle_mw : ℚ) :
    EnergyResult :=
  integrate_core t_start t_end idle_mw
    (get_samples buf (some t_start) (some t_end))

/-- Modelled from the spec sentence for one adjacent pair: clamp each
power to `max(0, p - idle_mw)`, convert mW to W by dividing by 1000,
and take the trapezoid area `((p1_w + p2_w) / 2) * (t2 - t1)`. -/
def specPairEnergy (idle_mw : ℚ) (s1 s2 : Sample) : ℚ :=
  ((max 0 (s1.2 - idle_mw) / 1000 + max 0 (s2.2 - idle_mw) / 1000) / 2)
    * (s2.1 - s1.1)

/-- Modelled from the spec sentence: the sum over consecutive sample
pairs of the per-pair trapezoid energies. -/
def specTrapSum (idle_mw : ℚ) (samples : List Sample) : ℚ :=
  ((samples.zip samples.tail).map
    (fun pr => specPairEnergy idle_mw pr.1 pr.2)).sum

/-- The error message of `measure_idle` on a session that is not
running. -/
def notStartedMsg : String := "Monitor not started. Call start() first."

/-- The error message of `measure_idle` when no samples were captured. -/
def noSamplesMsg : String := "No power samples collected. Check tegrastats output."

/-- `measure_idle`: fail if the monitor is not running; otherwise take
the samples captured in the calibration window `[t_start, t_end]` (the
buffer was cleared at `t_start` and read at `t_end`), fail if there are
none, and return the arithmetic mean of their powers. -/
def measure_idle (running : Bool) (buf : List Sample) (t_start t_end : ℚ) :
    Except String ℚ :=
  if running = false then Except.error notStartedMsg
  else
    let samples := get_samples buf (some t_start) (some t_end)
    if samples.isEmpty then Except.error noSamplesMsg
    else Except.ok (((samples.map Prod.snd).sum) / (samples.length : ℚ))

/-- The monitor state touched by `stop`: the running flag, whether a
subprocess handle and a reader thread are held, and the buffer. -/
structure MonitorState where
  running : Bool
  hasProcess : Bool
  hasThread : Bool
  samples : List Sample
deriving DecidableEq, Repr

/-- `stop()`: a no-op when not running; otherwise clear the running
flag, terminate and drop the process handle, join and drop the thread,
leaving the buffered samples in place. -/
def stop (s : MonitorState) : MonitorState :=
  if s.running = false then s
  else { running := false,
         hasProcess := false,
         hasThread := false,
         samples := s.samples }

/-- The buffer capacity: `deque(maxlen=100000)`. -/
def bufCapacity : ℕ := 100000

/-- One append to a `deque` with a maximum length: add at the right and,
if the capacity is now exceeded, silently drop from the left. -/
def deque_append {α : Type} (cap : ℕ) (buf : List α) (x : α) : List α :=
  let b := buf ++ [x]
  if cap < b.length then b.drop (b.length - cap) else b

/-- Appending a whole sequence of samples to an initially empty bounded
deque. -/
def ring_append_all {α : Type} (cap : ℕ) (xs : List α) : List α :=
  xs.foldl (deque_append cap) []

/-- A concrete sequence of one more sample than the buffer capacity,
used to exercise ring eviction. -/
def overflowSeq : List Sample := List.replicate 100001 ((0:ℚ), (0:ℚ))

/-- The whitespace class of the regex `\s`. -/
def isSpaceChar (c : Char) : Bool :=
  c = ' ' || c = '\t' || c = '\n' || c = '\r' || c = '\x0b' || c = '\x0c'

/-- The digit class of the regex `\d` (ASCII digits). -/
def isDigitChar (c : Char) : Bool :=
  48 ≤ c.toNat && c.toNat ≤ 57

/-- Decimal value of a digit string, as captured by a `(\d+)` group. -/
def digitsToNat (ds : List Char) : ℕ :=
  ds.foldl (fun acc c => 10 * acc + (c.toNat - 48)) 0

/-- Whether `pat` is a leading segment of `s`. -/
def begWith : List Char → List Char → Bool
  | [], _ => true
  | _ :: _, [] => false
  | a :: as, b :: bs => a = b && begWith as bs

/-- Whether `pat` occurs contiguously anywhere inside `s`. -/
def containsSub (pat : List Char) : List Char → Bool
  | [] => begWith pat []
  | c :: rest => begWith pat (c :: rest) || containsSub pat rest

/-- Matching the tail `\s+(\d+)/(\d+)` of the power regex right after a
field name: at least one whitespace character, a first digit group (the
current value, captured), a slash, and a second digit group (the
average, ignored). -/
def match_after_name (s : List Char) : Option ℕ :=
  let ws := s.takeWhile isSpaceChar
  let rest := s.dropWhile isSpaceChar
  if ws.isEmpty then none
  else
    let d1 := rest.takeWhile isDigitChar
    let rest2 := rest.dropWhile isDigitChar
    if d1.isEmpty then none
    else match rest2 with
      | '/' :: rest3 =>
          if (rest3.takeWhile isDigitChar).isEmpty then none
          else some (digitsToNat d1)
      | _ => none

/-- `re.search` for `name\s+(\d+)/(\d+)`: try each position from the
left; where the literal field name occurs, match the numeric tail after
it, and otherwise keep scanning. -/
def search_field (name : List Char) : List Char → Option ℕ
  | [] => none
  | c :: rest =>
      if begWith name (c :: rest) then
        match match_after_name ((c :: rest).drop name.length) with
        | some v => some v
        | none => search_field name rest
      else search_field name rest

/-- The primary total-input-power field name, `VDD_IN`. -/
def vddName : List Char := ['V', 'D', 'D', '_', 'I', 'N']

/-- The fallback field name on some Jetson models, `POM_5V_IN`. -/
def pomName : List Char := ['P', 'O', 'M', '_', '5', 'V', '_', 'I', 'N']

/-- `_parse_power`: search for the `VDD_IN current/average` pattern
first, then for `POM_5V_IN current/average`, returning the current
member in milliwatts, or `none` when neither matches. -/
def parse_power (line : List Char) : Option ℚ :=
  match search_field vddName line with
  | some v => some (v : ℚ)
  | none =>
    match search_field pomName line with
    | some v => some (v : ℚ)
    | none => none

theorem mem_get_samples {buf : List Sample} {s e : ℚ} {sp : Sample}
    (h : sp ∈ get_samples buf (some s) (some e)) : s ≤ sp.1 ∧ sp.1 ≤ e := by
  simp only [get_samples, List.mem_filter, decide_eq_true_eq] at h
  exact ⟨h.1.2, h.2⟩

theorem get_samples_eq_nil_of_lt {buf : List Sample} {s e : ℚ} (h : e < s) :
    get_samples buf (some s) (some e) = [] := by
  rw [List.eq_nil_iff_forall_not_mem]
  intro sp hsp
  have hb := mem_get_samples hsp
  linarith [hb.1, hb.2]

theorem get_samples_sublist (buf : List Sample) (s e : ℚ) :
    (get_samples buf (some s) (some e)).Sublist buf := by
  simp only [get_samples]
  exact (List.filter_sublist _).trans (List.filter_sublist _)

theorem get_samples_pairwise {buf : List Sample}
    (h : buf.Pairwise (fun a b => a.1 ≤ b.1)) (s e : ℚ) :
    (get_samples buf (some s) (some e)).Pairwise (fun a b => a.1 ≤ b.1) :=
  h.sublist (get_samples_sublist buf s e)

theorem trapLoop_nonneg (idle : ℚ) :
    ∀ l : List Sample, l.Pairwise (fun a b => a.1 ≤ b.1) → 0 ≤ trapLoop idle l
  | [] => fun _ => le_refl 0
  | [_] => fun _ => le_refl 0
  | s1 :: s2 :: rest => fun hp => by
      rw [List.pairwise_cons] at hp
      have h12 : s1.1 ≤ s2.1 := hp.1 s2 (List.mem_cons_self _ _)
      have hrest := trapLoop_nonneg idle (s2 :: rest) hp.2
      have a1 := le_max_left (0:ℚ) (s1.2 - idle)
      have a2 := le_max_left (0:ℚ) (s2.2 - idle)
      have hterm : 0 ≤ ((max 0 (s1.2 - idle) / 1000 + max 0 (s2.2 - idle) / 1000) / 2)
          * (s2.1 - s1.1) :=
        mul_nonneg
          (div_nonneg
            (add_nonneg (div_nonneg a1 (by norm_num)) (div_nonneg a2 (by norm_num)))
            (by norm_num))
          (by linarith)
      simp only [trapLoop]
      exact add_nonneg hterm hrest

theorem trapLoop_anti {idle idle2 : ℚ} (hi : idle ≤ idle2) :
    ∀ l : List Sample, l.Pairwise (fun a b => a.1 ≤ b.1) →
      trapLoop idle2 l ≤ trapLoop idle l
  | [] => fun _ => le_refl 0
  | [_] => fun _ => le_refl 0
  | s1 :: s2 :: rest => fun hp => by
      rw [List.pairwise_cons] at hp
      have h12 : s1.1 ≤ s2.1 := hp.1 s2 (List.mem_cons_self _ _)
      have hrest := trapLoop_anti hi (s2 :: rest) hp.2
      have hm1 : max 0 (s1.2 - idle2) ≤ max 0 (s1.2 - idle) :=
        max_le_max le_rfl (by linarith)
      have hm2 : max 0 (s2.2 - idle2) ≤ max 0 (s2.2 - idle) :=
        max_le_max le_rfl (by linarith)
      have hterm :
          ((max 0 (s1.2 - idle2) / 1000 + max 0 (s2.2 - idle2) / 1000) / 2)
              * (s2.1 - s1.1) ≤
            ((max 0 (s1.2 - idle) / 1000 + max 0 (s2.2 - idle) / 1000) / 2)
              * (s2.1 - s1.1) :=
        mul_le_mul_of_nonneg_right (by linarith) (by linarith)
      simp only [trapLoop]
      exact add_le_add hterm hrest

theorem trapLoop_zero_of_le {idle : ℚ} :
    ∀ l : List Sample, (∀ sp ∈ l, sp.2 ≤ idle) → trapLoop idle l = 0
  | [] => fun _ => rfl
  | [_] => fun _ => rfl
  | s1 :: s2 :: rest => fun h => by
      have hm1 : max 0 (s1.2 - idle) = 0 :=
        max_eq_left (by have := h s1 (List.mem_cons_self _ _); linarith)
      have hm2 : max 0 (s2.2 - idle) = 0 :=
        max_eq_left (by
          have := h s2 (List.mem_cons_of_mem _ (List.mem_cons_self _ _))
          linarith)
      have hrest := trapLoop_zero_of_le (s2 :: rest)
        (fun sp hsp => h sp (List.mem_cons_of_mem _ hsp))
      simp only [trapLoop]
      rw [hm1, hm2, hrest]
      norm_num

theorem overflowSeq_length : overflowSeq.length = 100001 := by
  unfold overflowSeq
  rw [List.length_replicate]

theorem isSpaceChar_eq_false_of_digit {c : Char} (h : isDigitChar c = true) :
    isSpaceChar c = false := by
  simp only [isDigitChar, Bool.and_eq_true, decide_eq_true_eq] at h
  by_contra hs
  rw [Bool.not_eq_false] at hs
  simp only [isSpaceChar, Bool.or_eq_true, decide_eq_true_eq] at hs
  rcases hs with ((((hc | hc) | hc) | hc) | hc) | hc <;> subst hc <;>
    exact absurd h (by decide)

theorem takeWhile_digits_append (x : Char) (hx : isDigitChar x = false) (t : List Char) :
    ∀ ds : List Char, (∀ c ∈ ds, isDigitChar c = true) →
      ((ds ++ x :: t).takeWhile isDigitChar = ds ∧
       (ds ++ x :: t).dropWhile isDigitChar = x :: t)
  | [], _ => by
      constructor
      · exact List.takeWhile_cons_of_neg (by simp [hx])
      · exact List.dropWhile_cons_of_neg (by simp [hx])
  | d :: ds, h => by
      have hd : isDigitChar d = true := h d (List.mem_cons_self _ _)
      have ih := takeWhile_digits_append x hx t ds
        (fun c hc => h c (List.mem_cons_of_mem _ hc))
      rw [List.cons_append]
      constructor
      · rw [List.takeWhile_cons_of_pos (by simp [hd]), ih.1]
      · rw [List.dropWhile_cons_of_pos (by simp [hd]), ih.2]

theorem match_after_name_spec (ds1 ds2 rest : List Char)
    (h1 : ds1 ≠ []) (h2 : ds2 ≠ [])
    (hd1 : ∀ c ∈ ds1, isDigitChar c = true)
    (hd2 : ∀ c ∈ ds2, isDigitChar c = true) :
    match_after_name (' ' :: (ds1 ++ '/' :: (ds2 ++ rest))) =
      some (digitsToNat ds1) := by
  obtain ⟨d, ds1', rfl⟩ : ∃ d ds1', ds1 = d :: ds1' := by
    cases ds1 with
    | nil => exact absurd rfl h1
    | cons a b => exact ⟨a, b, rfl⟩
  obtain ⟨g, ds2', rfl⟩ : ∃ g ds2', ds2 = g :: ds2' := by
    cases ds2 with
    | nil => exact absurd rfl h2
    | cons a b => exact ⟨a, b, rfl⟩
  have hdd : isDigitChar d = true := hd1 d (List.mem_cons_self _ _)
  have hgg : isDigitChar g = true := hd2 g (List.mem_cons_self _ _)
  have hslash : isDigitChar '/' = false := by decide
  have hTW := takeWhile_digits_append '/' hslash ((g :: ds2') ++ rest) (d :: ds1') hd1
  have hs_take : ((' ' :: ((d :: ds1') ++ '/' :: ((g :: ds2') ++ rest)))).takeWhile
      isSpaceChar = [' '] := by
    rw [List.takeWhile_cons_of_pos (by decide), List.cons_append,
      List.takeWhile_cons_of_neg (by simp [isSpaceChar_eq_false_of_digit hdd])]
  have hs_drop : ((' ' :: ((d :: ds1') ++ '/' :: ((g :: ds2') ++ rest)))).dropWhile
      isSpaceChar = (d :: ds1') ++ '/' :: ((g :: ds2') ++ rest) := by
    rw [List.dropWhile_cons_of_pos (by decide), List.cons_append,
      List.dropWhile_cons_of_neg (by simp [isSpaceChar_eq_false_of_digit hdd])]
  have hg_take : (((g :: ds2') ++ rest).takeWhile isDigitChar).isEmpty = false := by
    rw [List.cons_append, List.takeWhile_cons_of_pos (by simp [hgg])]
    rfl
  simp only [match_after_name, hs_take, hs_drop, hTW.1, hTW.2, hg_take]
  rfl

theorem begWith_refl_append : ∀ (l t : List Char), begWith l (l ++ t) = true
  | [], _ => rfl
  | a :: as, t => by
      rw [List.cons_append, begWith]
      simp [begWith_refl_append as t]

theorem search_field_head (name tail : List Char) (hne : name ≠ []) (v : ℕ)
    (hm : match_after_name tail = some v) :
    search_field name (name ++ tail) = some v := by
  cases name with
  | nil => exact absurd rfl hne
  | cons c cs =>
    have hsh : (c :: cs) ++ tail = c :: (cs ++ tail) := rfl
    have hbw : begWith (c :: cs) (c :: (cs ++ tail)) = true := by
      have := begWith_refl_append (c :: cs) tail
      rwa [hsh] at this
    have hdrop : (c :: (cs ++ tail)).drop (c :: cs).length = tail := by
      rw [← hsh]
      exact List.drop_left _ _
    rw [hsh, search_field, if_pos hbw, hdrop, hm]

theorem search_field_eq_none {name : List Char} :
    ∀ s : List Char, containsSub name s = false → search_field name s = none
  | [], _ => rfl
  | c :: rest, h => by
      rw [containsSub, Bool.or_eq_false_iff] at h
      rw [search_field, if_neg (by rw [h.1]; exact Bool.false_ne_true),
        search_field_eq_none rest h.2]

theorem deque_append_eq {α : Type} (cap : ℕ) (buf : List α) (x : α) :
    deque_append cap buf x = (buf ++ [x]).drop ((buf ++ [x]).length - cap) := by
  simp only [deque_append]
  by_cases h : cap < (buf ++ [x]).length
  · rw [if_pos h]
  · rw [if_neg h, Nat.sub_eq_zero_of_le (le_of_not_lt h), List.drop_zero]

theorem foldl_deque_append {α : Type} (cap : ℕ) :
    ∀ (xs buf : List α), buf.length ≤ cap →
      xs.foldl (deque_append cap) buf =
        (buf ++ xs).drop ((buf ++ xs).length - cap)
  | [], buf => fun h => by
      simp [Nat.sub_eq_zero_of_le h]
  | x :: xs, buf => fun h => by
      have hlen : (deque_append cap buf x).length ≤ cap := by
        rw [deque_append_eq, List.length_drop]
        omega
      rw [List.foldl_cons,
        foldl_deque_append cap xs (deque_append cap buf x) hlen,
        deque_append_eq]
      have hk : (buf ++ [x]).length - cap ≤ (buf ++ [x]).length := Nat.sub_le _ _
      rw [← List.drop_append_of_le_length hk, List.drop_drop]
      have hassoc : buf ++ [x] ++ xs = buf ++ x :: xs := by
        simp
      rw [hassoc]
      congr 1
      simp only [List.length_append, List.length_drop, List.length_singleton,
        List.length_cons, List.length_nil]
      omega

theorem trapLoop_eq_specTrapSum (idle_mw : ℚ) (samples : List Sample) :
    trapLoop idle_mw samples = specTrapSum idle_mw samples := by
  induction samples with
  | nil => simp [trapLoop, specTrapSum]
  | cons s1 rest ih =>
    cases rest with
    | nil => simp [trapLoop, specTrapSum]
    | cons s2 rest2 =>
      simp only [trapLoop, specTrapSum, List.tail_cons, List.zip_cons_cons,
        List.map_cons, List.sum_cons] at *
      rw [ih]
      rfl

/-- C1: with two or more samples in the window, `integrate_energy` is
the sum over consecutive selected sample pairs of the trapezoid areas
`((max(0,p1-idle)/1000 + max(0,p2-idle)/1000)/2) * (t2-t1)`; on the
buffer `[(0,1000),(2,2000)]` with window `[0,2]` and `idle_mw = 0` it
returns exactly `3` joules. -/
theorem c1_trapezoidal_sum :
    (∀ (buf : List Sample) (t_start t_end idle_mw : ℚ),
      2 ≤ (get_samples buf (some t_start) (some t_end)).length →
      (integrate_energy buf t_start t_end idle_mw).energy =
        specTrapSum idle_mw (get_samples buf (some t_start) (some t_end))) ∧
    (integrate_energy [(0, 1000), (2, 2000)] 0 2 0).energy = 3 := by
  constructor
  · intro buf t_start t_end idle_mw h
    unfold integrate_energy
    rcases hs : get_samples buf (some t_start) (some t_end) with _ | ⟨s1, _ | ⟨s2, rest⟩⟩
    · rw [hs] at h; simp at h
    · rw [hs] at h; simp at h
    · simp only [integrate_core]
      exact trapLoop_eq_specTrapSum idle_mw (s1 :: s2 :: rest)
  · norm_num [integrate_energy, integrate_core, get_samples, trapLoop]

/-- C1 witness: the general clause applied to the concrete two-sample
buffer. -/
theorem c1_trapezoidal_sum_witness :
    2 ≤ (get_samples [((0:ℚ), (1000:ℚ)), (2, 2000)] (some 0) (some 2)).length ∧
    (integrate_energy [((0:ℚ), (1000:ℚ)), (2, 2000)] 0 2 0).energy =
      specTrapSum 0 (get_samples [((0:ℚ), (1000:ℚ)), (2, 2000)] (some 0) (some 2)) :=
  ⟨by norm_num [get_samples],
   c1_trapezoidal_sum.1 [(0, 1000), (2, 2000)] 0 2 0 (by norm_num [get_samples])⟩

/-- C2 counterexample: with the single buffered sample `(t=5, 3000 mW)`,
`idle_mw = 1000` and window `[0,4]`, the sample falls outside the window,
so `integrate_energy(0, 4, 1000)` returns `0`, not the `8` joules the
claim states. -/
theorem c2_single_sample_counterexample :
    (integrate_energy [((5:ℚ), (3000:ℚ))] 0 4 1000).energy = 0 ∧
    (integrate_energy [((5:ℚ), (3000:ℚ))] 0 4 1000).energy ≠ 8 := by
  norm_num [integrate_energy, integrate_core, get_samples]

/-- C2 (amended): when exactly one sample lies in the query window,
`integrate_energy` treats it as constant power over the whole interval
and returns `max(0, p - idle_mw) / 1000 * (t_end - t_start)`; in
particular, with the single buffered sample `(t=2, 3000 mW)` (which lies
inside the window), `idle_mw = 1000` and window `[0,4]`, it returns `8`
joules. -/
theorem c2_single_sample :
    (∀ (buf : List Sample) (s e idle t p : ℚ),
      get_samples buf (some s) (some e) = [(t, p)] →
      (integrate_energy buf s e idle).energy = max 0 (p - idle) / 1000 * (e - s)) ∧
    (integrate_energy [((2:ℚ), (3000:ℚ))] 0 4 1000).energy = 8 := by
  constructor
  · intro buf s e idle t p h
    have hmem : ((t, p) : Sample) ∈ get_samples buf (some s) (some e) := by
      rw [h]; exact List.mem_singleton_self _
    have hb := mem_get_samples hmem
    have hd : 0 ≤ e - s := by
      have h1 : s ≤ t := hb.1
      have h2 : t ≤ e := hb.2
      linarith
    unfold integrate_energy
    rw [h]
    simp only [integrate_core]
    rcases le_total (p - idle) 0 with ha | ha
    · have h1 : (p - idle) / 1000 ≤ 0 :=
        div_nonpos_iff.mpr (Or.inr ⟨ha, by norm_num⟩)
      have h2 : (p - idle) / 1000 * (e - s) ≤ 0 :=
        mul_nonpos_iff.mpr (Or.inr ⟨h1, hd⟩)
      rw [max_eq_left h2, max_eq_left ha]
      norm_num
    · have h1 : 0 ≤ (p - idle) / 1000 * (e - s) :=
        mul_nonneg (div_nonneg ha (by norm_num)) hd
      rw [max_eq_right h1, max_eq_right ha]
  · norm_num [integrate_energy, integrate_core, get_samples]

/-- C2 witness: the single-sample clause applied to a concrete buffer
whose one sample lies in the window. -/
theorem c2_single_sample_witness :
    (integrate_energy [((3:ℚ), (2000:ℚ))] 1 5 500).energy =
      max 0 ((2000:ℚ) - 500) / 1000 * (5 - 1) :=
  c2_single_sample.1 [(3, 2000)] 1 5 500 3 2000 (by norm_num [get_samples])

/-- C5: when no buffered sample falls in the window — in particular for
every inverted window with `t_end < t_start` — `integrate_energy`
returns `0` joules with the warning flag set, and (being a total
function of the buffer and window) raises no exception. -/
theorem c5_empty_window :
    (∀ (buf : List Sample) (s e idle : ℚ),
      get_samples buf (some s) (some e) = [] →
      integrate_energy buf s e idle = ⟨0, true⟩) ∧
    (∀ (buf : List Sample) (s e idle : ℚ), e < s →
      integrate_energy buf s e idle = ⟨0, true⟩) := by
  have base : ∀ (buf : List Sample) (s e idle : ℚ),
      get_samples buf (some s) (some e) = [] →
      integrate_energy buf s e idle = ⟨0, true⟩ := by
    intro buf s e idle h
    unfold integrate_energy
    rw [h]
    rfl
  exact ⟨base, fun buf s e idle hlt => base buf s e idle (get_samples_eq_nil_of_lt hlt)⟩

/-- C5 witness: the inverted-window clause applied to a concrete
buffer. -/
theorem c5_empty_window_witness :
    integrate_energy [((1:ℚ), (7:ℚ))] 2 1 0 = ⟨0, true⟩ :=
  c5_empty_window.2 [(1, 7)] 2 1 0 (by norm_num)

/-- C10: with two or more selected samples, the energy depends only on
the selected samples, not on the window edges: two windows selecting the
same samples yield the same energy. -/
theorem c10_window_independent :
    ∀ (buf : List Sample) (s e s2 e2 idle : ℚ),
      get_samples buf (some s) (some e) = get_samples buf (some s2) (some e2) →
      2 ≤ (get_samples buf (some s) (some e)).length →
      (integrate_energy buf s e idle).energy =
        (integrate_energy buf s2 e2 idle).energy := by
  intro buf s e s2 e2 idle heq hlen
  unfold integrate_energy
  rw [← heq]
  rcases hs : get_samples buf (some s) (some e) with _ | ⟨a, _ | ⟨b, l⟩⟩
  · rw [hs] at hlen; simp at hlen
  · rw [hs] at hlen; simp at hlen
  · rfl

/-- C10 witness: the windows `[0,2]` and `[-5,10]` select the same two
samples and give the same energy. -/
theorem c10_window_independent_witness :
    (integrate_energy [((0:ℚ), (1000:ℚ)), (2, 2000)] 0 2 0).energy =
      (integrate_energy [((0:ℚ), (1000:ℚ)), (2, 2000)] (-5) 10 0).energy :=
  c10_window_independent [(0, 1000), (2, 2000)] 0 2 (-5) 10 0
    (by norm_num [get_samples]) (by norm_num [get_samples])

/-- C3: for a buffer whose samples are in non-decreasing timestamp order
and a window with `t_start ≤ t_end`, the result of `integrate_energy` is
non-increasing in `idle_mw` and always non-negative. -/
theorem c3_idle_monotone :
    ∀ (buf : List Sample) (s e idle idle2 : ℚ),
      buf.Pairwise (fun a b => a.1 ≤ b.1) → s ≤ e → idle ≤ idle2 →
      (integrate_energy buf s e idle2).energy ≤
        (integrate_energy buf s e idle).energy ∧
      0 ≤ (integrate_energy buf s e idle).energy := by
  intro buf s e idle idle2 hp hse hi
  have hps := get_samples_pairwise hp s e
  unfold integrate_energy
  rcases hs : get_samples buf (some s) (some e) with _ | ⟨s0, _ | ⟨s1, rest⟩⟩
  · exact ⟨le_refl 0, le_refl 0⟩
  · simp only [integrate_core]
    constructor
    · refine max_le_max le_rfl ?_
      refine mul_le_mul_of_nonneg_right ?_ (by linarith)
      have : s0.2 - idle2 ≤ s0.2 - idle := by linarith
      linarith
    · exact le_max_left 0 _
  · rw [hs] at hps
    exact ⟨trapLoop_anti hi _ hps, trapLoop_nonneg idle _ hps⟩

/-- C3 witness: the monotonicity and non-negativity clause applied to a
concrete sorted buffer, with `idle_mw` raised from `0` to `500`. -/
theorem c3_idle_monotone_witness :
    (integrate_energy [((0:ℚ), (1000:ℚ)), (2, 2000)] 0 2 500).energy ≤
      (integrate_energy [((0:ℚ), (1000:ℚ)), (2, 2000)] 0 2 0).energy ∧
    0 ≤ (integrate_energy [((0:ℚ), (1000:ℚ)), (2, 2000)] 0 2 0).energy :=
  c3_idle_monotone [(0, 1000), (2, 2000)] 0 2 0 500
    (by norm_num [List.pairwise_cons]) (by norm_num) (by norm_num)

/-- C4: in the two-or-more-samples case the idle clamp is applied per
endpoint before averaging, so a window whose samples all sit at or below
the idle baseline integrates to exactly `0`; each trapezoid term is
non-negative whenever its timestamps are ordered; and the buffer
`[(0,500),(1,500)]` with `idle_mw = 600` integrates to `0` over
`[0,1]`. -/
theorem c4_idle_clamp :
    (∀ (buf : List Sample) (s e idle : ℚ),
      2 ≤ (get_samples buf (some s) (some e)).length →
      (∀ sp ∈ get_samples buf (some s) (some e), sp.2 ≤ idle) →
      (integrate_energy buf s e idle).energy = 0) ∧
    (∀ (idle : ℚ) (s1 s2 : Sample), s1.1 ≤ s2.1 → 0 ≤ trapLoop idle [s1, s2]) ∧
    (integrate_energy [((0:ℚ), (500:ℚ)), (1, 500)] 0 1 600).energy = 0 := by
  refine ⟨?_, ?_, ?_⟩
  · intro buf s e idle hlen hall
    unfold integrate_energy
    rcases hs : get_samples buf (some s) (some e) with _ | ⟨s1, _ | ⟨s2, rest⟩⟩
    · rw [hs] at hlen; simp at hlen
    · rw [hs] at hlen; simp at hlen
    · rw [hs] at hall
      simp only [integrate_core]
      exact trapLoop_zero_of_le _ hall
  · intro idle s1 s2 h12
    apply trapLoop_nonneg
    simp [List.pairwise_cons, h12]
  · norm_num [integrate_energy, integrate_core, get_samples, trapLoop]

/-- C4 witness: the all-below-idle clause applied to the concrete buffer
`[(0,500),(1,500)]` with `idle_mw = 700`. -/
theorem c4_idle_clamp_witness :
    (integrate_energy [((0:ℚ), (500:ℚ)), (1, 500)] 0 1 700).energy = 0 :=
  c4_idle_clamp.1 [(0, 500), (1, 500)] 0 1 700
    (by norm_num [get_samples])
    (by norm_num [get_samples, List.forall_mem_cons])

/-- C6: `measure_idle` fails exactly when the monitor is not running or
no samples were captured in the calibration window; the not-running
check comes first (a usage error independent of the buffer), and in the
successful case the result is the arithmetic mean of the captured
powers. -/
theorem c6_measure_idle :
    ∀ (running : Bool) (buf : List Sample) (t0 t1 : ℚ),
      ((∃ msg, measure_idle running buf t0 t1 = Except.error msg) ↔
        (running = false ∨ get_samples buf (some t0) (some t1) = [])) ∧
      (running = false →
        measure_idle running buf t0 t1 = Except.error notStartedMsg) ∧
      (running = true → get_samples buf (some t0) (some t1) ≠ [] →
        measure_idle running buf t0 t1 =
          Except.ok (((get_samples buf (some t0) (some t1)).map Prod.snd).sum /
            ((get_samples buf (some t0) (some t1)).length : ℚ))) := by
  intro running buf t0 t1
  cases running with
  | false =>
    refine ⟨⟨fun _ => Or.inl rfl, fun _ => ⟨notStartedMsg, by simp [measure_idle]⟩⟩,
      fun _ => by simp [measure_idle], fun h => by cases h⟩
  | true =>
    by_cases hE : get_samples buf (some t0) (some t1) = []
    · have herr : measure_idle true buf t0 t1 = Except.error noSamplesMsg := by
        simp [measure_idle, hE]
      refine ⟨⟨fun _ => Or.inr hE, fun _ => ⟨noSamplesMsg, herr⟩⟩, ?_,
        fun _ hne => absurd hE hne⟩
      intro h
      cases h
    · have hok : measure_idle true buf t0 t1 =
          Except.ok (((get_samples buf (some t0) (some t1)).map Prod.snd).sum /
            ((get_samples buf (some t0) (some t1)).length : ℚ)) := by
        simp [measure_idle, List.isEmpty_iff, hE]
      refine ⟨⟨?_, ?_⟩, ?_, fun _ _ => hok⟩
      · rintro ⟨msg, hm⟩
        rw [hok] at hm
        cases hm
      · rintro (h | h)
        · cases h
        · exact absurd h hE
      · intro h
        cases h

/-- C6 witness: calling `measure_idle` on a session that was never
started yields the explicit usage error. -/
theorem c6_measure_idle_witness :
    measure_idle false [((1:ℚ), (500:ℚ))] 0 2 = Except.error notStartedMsg :=
  (c6_measure_idle false [(1, 500)] 0 2).2.1 rfl

/-- C9: `stop` on a monitor that is not running is a no-op returning the
state unchanged (running flag, process handle, thread, samples), and
`stop` is idempotent on every state. -/
theorem c9_stop_idempotent :
    (∀ s : MonitorState, s.running = false → stop s = s) ∧
    (∀ s : MonitorState, stop (stop s) = stop s) := by
  have h1 : ∀ s : MonitorState, s.running = false → stop s = s := by
    intro s h
    simp [stop, h]
  refine ⟨h1, fun s => ?_⟩
  by_cases h : s.running = false
  · rw [h1 s h]
    exact h1 s h
  · apply h1
    simp [stop, h]

/-- C9 witness: the no-op clause applied to a concrete stopped state
that still holds handles and samples. -/
theorem c9_stop_idempotent_witness :
    stop ⟨false, true, true, [((1:ℚ), (2:ℚ))]⟩ = ⟨false, true, true, [((1:ℚ), (2:ℚ))]⟩ :=
  c9_stop_idempotent.1 ⟨false, true, true, [(1, 2)]⟩ rfl

/-- C7: appending a sequence longer than the capacity of `100000` to an
initially empty bounded deque retains exactly the most recent `100000`
elements in their original append order (each overflowing append
silently drops the oldest element), and the resulting length is exactly
the capacity. -/
theorem c7_ring_buffer :
    ∀ xs : List Sample, bufCapacity < xs.length →
      ring_append_all bufCapacity xs = xs.drop (xs.length - bufCapacity) ∧
      (ring_append_all bufCapacity xs).length = bufCapacity := by
  intro xs h
  have h0 : ([] : List Sample).length ≤ bufCapacity := by simp
  have hfold := foldl_deque_append bufCapacity xs [] h0
  simp only [List.nil_append] at hfold
  rw [ring_append_all]
  refine ⟨hfold, ?_⟩
  rw [hfold, List.length_drop]
  omega

/-- C7 witness: a sequence of `100001` appends leaves the buffer holding
the last `100000` elements. -/
theorem c7_ring_buffer_witness :
    ring_append_all bufCapacity overflowSeq =
      overflowSeq.drop (overflowSeq.length - bufCapacity) ∧
    (ring_append_all bufCapacity overflowSeq).length = bufCapacity :=
  c7_ring_buffer overflowSeq (by rw [overflowSeq_length]; norm_num [bufCapacity])

/-- C8: `parse_power` returns the current (first) member of the
`VDD_IN current/average` pair, or failing that of the
`POM_5V_IN current/average` pair, ignoring the average member; a line
containing neither field name parses to `none`; malformed numeric text
after a field name parses to `none`; and `VDD_IN` takes priority when
both fields occur. -/
theorem c8_parse_power :
    (∀ ds1 ds2 rest : List Char, ds1 ≠ [] → ds2 ≠ [] →
      (∀ c ∈ ds1, isDigitChar c = true) → (∀ c ∈ ds2, isDigitChar c = true) →
      parse_power (vddName ++ ' ' :: (ds1 ++ '/' :: (ds2 ++ rest))) =
        some ((digitsToNat ds1 : ℚ))) ∧
    (∀ ds1 ds2 rest : List Char, ds1 ≠ [] → ds2 ≠ [] →
      (∀ c ∈ ds1, isDigitChar c = true) → (∀ c ∈ ds2, isDigitChar c = true) →
      containsSub vddName (pomName ++ ' ' :: (ds1 ++ '/' :: (ds2 ++ rest))) = false →
      parse_power (pomName ++ ' ' :: (ds1 ++ '/' :: (ds2 ++ rest))) =
        some ((digitsToNat ds1 : ℚ))) ∧
    (∀ line : List Char, containsSub vddName line = false →
      containsSub pomName line = false → parse_power line = none) ∧
    (parse_power (vddName ++ [' ', 'a', 'b', 'c', '/', 'd', 'e', 'f']) = none) ∧
    (parse_power (pomName ++ ([' ', '7', '/', '8', ' '] ++
        (vddName ++ [' ', '3', '/', '4']))) = some 3) := by
  refine ⟨?_, ?_, ?_, ?_, ?_⟩
  · intro ds1 ds2 rest h1 h2 hd1 hd2
    have hm := match_after_name_spec ds1 ds2 rest h1 h2 hd1 hd2
    have hs := search_field_head vddName _ (by simp [vddName]) _ hm
    simp [parse_power, hs]
  · intro ds1 ds2 rest h1 h2 hd1 hd2 hV
    have hm := match_after_name_spec ds1 ds2 rest h1 h2 hd1 hd2
    have hs := search_field_head pomName _ (by simp [pomName]) _ hm
    have hnone := search_field_eq_none _ hV
    simp [parse_power, hnone, hs]
  · intro line hV hP
    simp [parse_power, search_field_eq_none _ hV, search_field_eq_none _ hP]
  · decide
  · decide

/-- C8 witness: the primary-field clause applied to the concrete line
`VDD_IN 2594/2600`. -/
theorem c8_parse_power_witness :
    parse_power (vddName ++ ' ' :: (['2', '5', '9', '4'] ++ '/' ::
        (['2', '6', '0', '0'] ++ []))) =
      some ((digitsToNat ['2', '5', '9', '4'] : ℚ)) :=
  c8_parse_power.1 ['2', '5', '9', '4'] ['2', '6', '0', '0'] []
    (by decide) (by decide) (by decide) (by decide)

end Tegrastats
